import Mathlib

/-!
# RuleBot matching engine, shallowly embedded

A Lean embedding of the Q&A matching engine in `rules.py` (with the row
shapes of `db.py`).  Python strings are modelled as `List Char` (ASCII
case-mapping and ASCII whitespace; all behaviour the claims touch is
ASCII).  The two pieces of the Python standard library the engine calls
but does not define — the regex engine (`re.compile`/`Pattern.search`)
and `difflib.SequenceMatcher.ratio` — enter as oracle parameters
(`compiles`, `search`, `ratioFn`): theorems quantify over them.  Floats
are modelled as rationals.
-/

/-- Python `\s` / `str.strip` whitespace, ASCII fragment:
space, `\t`, `\n`, `\v`, `\f`, `\r`. -/
def isPySpace (c : Char) : Bool := c.toNat = 32 || (9 ≤ c.toNat && c.toNat ≤ 13)

/-- A character of the class `[a-z0-9]` kept by `_strip_chars`. -/
def isLowerDigit (c : Char) : Bool :=
  (97 ≤ c.toNat && c.toNat ≤ 122) || (48 ≤ c.toNat && c.toNat ≤ 57)

/-- A character the regex `[^a-z0-9\s]` does *not* match. -/
def keepChar (c : Char) : Bool := isLowerDigit c || isPySpace c

/-- Python `str.lower`, ASCII fragment. -/
def pyLowerChar (c : Char) : Char :=
  if 65 ≤ c.toNat && c.toNat ≤ 90 then Char.ofNat (c.toNat + 32) else c

/-- `str.lower` over a whole string. -/
def pyLower (l : List Char) : List Char := l.map pyLowerChar

/-- Python `str.strip()`: drop whitespace from both ends. -/
def pyStrip (l : List Char) : List Char :=
  ((l.dropWhile isPySpace).reverse.dropWhile isPySpace).reverse

/-- `re.sub` for a pattern of the shape `C+` with replacement `" "`:
every maximal run of characters satisfying `p` becomes one space.
`inRun` records whether the previous character was part of a run. -/
def subRunsAux (p : Char → Bool) : Bool → List Char → List Char
  | _, [] => []
  | inRun, c :: cs =>
    if p c then
      if inRun then subRunsAux p true cs else ' ' :: subRunsAux p true cs
    else c :: subRunsAux p false cs

/-- `re.sub(C+, " ", l)`. -/
def subRuns (p : Char → Bool) (l : List Char) : List Char := subRunsAux p false l

/-- `rules.normalize_text` on `List Char`: strip, lowercase, replace
runs of `[^a-z0-9\s]` by one space, collapse whitespace runs to one
space — in exactly the source's order (the strip happens first). -/
def normalize_list (l : List Char) : List Char :=
  subRuns isPySpace (subRuns (fun c => !keepChar c) (pyLower (pyStrip l)))

/-- `rules.normalize_text`. -/
def normalize_text (s : String) : String := String.mk (normalize_list s.data)

-- quick sanity checks of the embedding on concrete inputs
example : normalize_text "  Hello,   WORLD! " = "hello world " := by decide
example : normalize_text "hi!" = "hi " := by decide
example : normalize_text "hi " = "hi" := by decide

/-! ## Phrase matching (`rules.phrase_in_text`) -/

/-- Python `\w`, ASCII fragment: `[a-zA-Z0-9_]`. -/
def isWordChar (c : Char) : Bool :=
  isLowerDigit c || (65 ≤ c.toNat && c.toNat ≤ 90) || c.toNat = 95

/-- Word-character test on an optional character; a position outside
the string counts as a non-word character (regex `\b` semantics). -/
def wordOpt : Option Char → Bool
  | some c => isWordChar c
  | none => false

/-- Whether position `i` of `t` holds a word character. -/
def wordAt (t : List Char) (i : Nat) : Bool := wordOpt (t.get? i)

/-- Whether regex `\b` matches at position `i` of `t`: exactly one of
the characters around the position is a word character. -/
def boundaryAt (t : List Char) (i : Nat) : Bool :=
  (if i = 0 then false else wordAt t (i - 1)) != wordAt t i

/-- Whether the literal `p` occurs in `t` starting at position `i`. -/
def matchAt (t p : List Char) (i : Nat) : Bool := (t.drop i).take p.length == p

/-- `re.search(rf"\b\x7bre.escape(p)\x7d\b", t) is not None`: scan every
position for an occurrence of the literal flanked by word boundaries. -/
def wholeWordSearch (t p : List Char) : Bool :=
  (List.range (t.length + 1)).any fun i =>
    matchAt t p i && boundaryAt t i && boundaryAt t (i + p.length)

/-- Python `str.split()` with no argument: split on whitespace runs,
dropping empty pieces.  `acc` is the (reversed) token being built. -/
def splitWsAux : List Char → List Char → List (List Char)
  | [], acc => if acc.isEmpty then [] else [acc.reverse]
  | c :: cs, acc =>
    if isPySpace c then
      if acc.isEmpty then splitWsAux cs [] else acc.reverse :: splitWsAux cs []
    else splitWsAux cs (c :: acc)

/-- `p.split()` (whitespace tokens of a phrase). -/
def splitWs (l : List Char) : List (List Char) := splitWsAux l []

/-- `rules.phrase_in_text`: empty phrase never matches; a single-token
phrase is searched with word boundaries; otherwise plain substring
containment (Python `phrase in text`). -/
def phrase_in_text (t p : List Char) : Bool :=
  if p.isEmpty then false
  else if (splitWs p).length = 1 then wholeWordSearch t p
  else decide (p <:+: t)

example : phrase_in_text "category".data "cat".data = false := by decide
example : phrase_in_text "i have a cat".data "cat".data = true := by decide
example : phrase_in_text "is there free wifi here".data "free wifi".data = true := by decide

/-! ## Keyword spec parsing (`rules.parse_keywords`) -/

/-- A compiled regex as the engine observes it: the pattern string it
was compiled from and its case-sensitivity flag.  Whether compilation
succeeds and what `Pattern.search` finds are oracle parameters. -/
structure RePattern where
  pat : List Char
  ignoreCase : Bool
deriving DecidableEq

/-- Python `s.split(",")`: split at every comma, keeping empty pieces;
the result is always non-empty. -/
def splitOnComma : List Char → List (List Char)
  | [] => [[]]
  | c :: cs =>
    let r := splitOnComma cs
    if c = ',' then [] :: r else (c :: r.headD []) :: r.tail

/-- `",".join`: inverse of `splitOnComma` on comma-free pieces. -/
def joinComma : List (List Char) → List Char
  | [] => []
  | [t] => t
  | t :: ts => t ++ ',' :: joinComma ts

/-- The `re:`-prefix test (`kw.startswith("re:")`). -/
def isRePrefixTok (kw : List Char) : Bool := kw.take 3 == ['r', 'e', ':']

/-- The slash-form test
(`len(kw) >= 2 and kw.startswith("/") and kw.count("/") >= 2`). -/
def isSlashTok (kw : List Char) : Bool :=
  2 ≤ kw.length && kw.take 1 == ['/'] && 2 ≤ kw.count '/'

/-- `kw.rfind("/")`: index of the last slash (the token is known to
contain one when this is used). -/
def rfindSlash (kw : List Char) : Nat := kw.length - 1 - kw.reverse.indexOf '/'

/-- The pattern text of a slash-form token: `kw[1:kw.rfind("/")]`. -/
def slashPat (kw : List Char) : List Char := (kw.drop 1).take (rfindSlash kw - 1)

/-- The flag suffix of a slash-form token: `kw[kw.rfind("/")+1:].lower()`. -/
def slashFlags (kw : List Char) : List Char := pyLower (kw.drop (rfindSlash kw + 1))

/-- The loop body of `rules.parse_keywords` over the comma-split
tokens.  `compiles` is the `re.compile` oracle: tokens whose pattern
it rejects are dropped silently, as the source's `except re.error:
pass` does. -/
def parseTokens (compiles : List Char → Bool) :
    List (List Char) → List (List Char) × List RePattern
  | [] => ([], [])
  | raw :: rest =>
    let kw := pyStrip raw
    let r := parseTokens compiles rest
    if kw.isEmpty then r
    else if isRePrefixTok kw then
      let p := pyStrip (kw.drop 3)
      if compiles p then (r.1, ⟨p, true⟩ :: r.2) else r
    else if isSlashTok kw then
      let p := slashPat kw
      if compiles p then (r.1, ⟨p, (slashFlags kw).contains 'i'⟩ :: r.2) else r
    else (pyLower kw :: r.1, r.2)

/-- `rules.parse_keywords`: `None` and `""` are falsy and yield nothing;
otherwise split on commas and classify each trimmed token. -/
def parse_keywords (compiles : List Char → Bool) (keywords : Option (List Char)) :
    List (List Char) × List RePattern :=
  match keywords with
  | none => ([], [])
  | some ks => if ks.isEmpty then ([], []) else parseTokens compiles (splitOnComma ks)

example :
    parse_keywords (fun _ => true) (some "hours, re:^open$ ,/wi fi/i".data) =
      (["hours".data], [⟨"^open$".data, true⟩, ⟨"wi fi".data, true⟩]) := by decide
example :
    parse_keywords (fun p => p ≠ "[".data) (some "cat,re:[,dog".data) =
      (["cat".data, "dog".data], []) := by decide

/-! ## Scoring (`rules.score_qna`) -/

/-- Python 3 `round` on a real value, as a rational: round half to
even (banker's rounding), the semantics of `round(float)`. -/
def pyRound (q : ℚ) : ℤ :=
  if q - ⌊q⌋ < 1/2 then ⌊q⌋
  else if 1/2 < q - ⌊q⌋ then ⌊q⌋ + 1
  else if ⌊q⌋ % 2 = 0 then ⌊q⌋ else ⌊q⌋ + 1

/-- `int(round(30 * r))` computed on the numerator and denominator of
`r` directly (integer arithmetic only, so the kernel can evaluate it
on literals; `round30_eq_pyRound` identifies it with
`pyRound (30 * r)`). -/
def round30 (r : ℚ) : ℤ :=
  let n : ℤ := 30 * r.num
  let d : ℤ := (r.den : ℤ)
  let f := n / d
  let rem := n - f * d
  if 2 * rem < d then f
  else if d < 2 * rem then f + 1
  else if f % 2 = 0 then f else f + 1

example : round30 (mkRat 1 60) = 0 := by decide
example : round30 (mkRat 1 20) = 2 := by decide
example : round30 (mkRat 1 12) = 2 := by decide
example : round30 (mkRat 1 2) = 15 := by decide
example : round30 (-(mkRat 1 60)) = 0 := by decide

/-- A row of the `qna` table as `db.fetch_qna` returns it
(`id, question, answer, keywords, priority`); `keywords` and
`priority` are nullable columns. -/
structure QnaRow where
  id : ℤ
  question : List Char
  answer : List Char
  keywords : Option (List Char)
  priority : Option ℤ
deriving DecidableEq

/-- The `details` dict built by `rules.score_qna`; `matched_regex`
holds the `pat.pattern` strings. -/
structure ScoreDetail where
  matched_keywords : List (List Char)
  matched_regex : List (List Char)
  exact : Bool
  ratioVal : ℚ
  priority : ℤ
deriving DecidableEq

/-- `rules.score_qna`.  `compiles` models `re.compile` success,
`search` models `Pattern.search` finding a match, `ratioFn` models
`SequenceMatcher(None, a, b).ratio()`.  The two keyword loops are kept
as folds accumulating `(score, matches)`, mirroring the source's
in-place accumulation; a null `priority` column is read as `0`
(`int(...) if ... is not None else 0`). -/
def score_qna (compiles : List Char → Bool) (search : RePattern → List Char → Bool)
    (ratioFn : List Char → List Char → ℚ) (user_norm : List Char) (row : QnaRow) :
    ℤ × ScoreDetail :=
  let q_norm := normalize_list row.question
  let exact := user_norm == q_norm
  let s1 : ℤ := if exact then 40 else 0
  let parsed := parse_keywords compiles row.keywords
  let kwStep := parsed.1.foldl
    (fun (acc : ℤ × List (List Char)) kw =>
      if phrase_in_text user_norm kw then (acc.1 + 12, acc.2 ++ [kw]) else acc)
    (s1, [])
  let reStep := parsed.2.foldl
    (fun (acc : ℤ × List (List Char)) p =>
      if search p user_norm then (acc.1 + 14, acc.2 ++ [p.pat]) else acc)
    (kwStep.1, [])
  let r := ratioFn user_norm q_norm
  let pr := row.priority.getD 0
  (reStep.1 + round30 r + pr * 2,
   ⟨kwStep.2, reStep.2, exact, r, pr⟩)

/-- A row of the `bots` table, restricted to the fields `match_rule`
reads (`id`, `fallback_message`). -/
structure BotRow where
  id : ℤ
  fallback_message : List Char
deriving DecidableEq

/-- The dict `rules.match_rule` returns.  `debug` distinguishes the
three shapes the source produces: key absent (`none`), key present
holding `None` (`some none`), key present holding the winning details
(`some (some d)`). -/
structure MatchResult where
  matched : Bool
  answer : List Char
  question : Option (List Char)
  qna_id : Option ℤ
  confidence : ℤ
  debug : Option (Option ScoreDetail)
deriving DecidableEq

/-- The selection loop of `rules.match_rule`: running best
`(best_row, best_score, best_details)` starts at `(None, -10**9,
None)` and is replaced only on a strictly greater score. -/
def selAux (compiles : List Char → Bool) (search : RePattern → List Char → Bool)
    (ratioFn : List Char → List Char → ℚ) (user_norm : List Char)
    (best : Option QnaRow × ℤ × Option ScoreDetail) :
    List QnaRow → Option QnaRow × ℤ × Option ScoreDetail
  | [] => best
  | row :: rest =>
    let sd := score_qna compiles search ratioFn user_norm row
    if sd.1 > best.2.1 then
      selAux compiles search ratioFn user_norm (some row, sd.1, some sd.2) rest
    else selAux compiles search ratioFn user_norm best rest

/-- The whole scoring pass over a bot's candidate list. -/
def selectLoop (compiles : List Char → Bool) (search : RePattern → List Char → Bool)
    (ratioFn : List Char → List Char → ℚ) (user_norm : List Char) (qnas : List QnaRow) :
    Option QnaRow × ℤ × Option ScoreDetail :=
  selAux compiles search ratioFn user_norm (none, -(10 ^ 9), none) qnas

/-- `rules.match_rule`, with the storage collaborator's answers passed
in: `bot?` is `fetch_bot_by_slug(bot_slug)` and `qnas` is
`fetch_qna(bot["id"])`.  `dbg` is the process-level `DEBUG` flag.
Returns `none` exactly where the Python would raise (subscripting
`best_details` when it is still `None`, possible only if every score
is `≤ -10**9`). -/
def match_rule (compiles : List Char → Bool) (search : RePattern → List Char → Bool)
    (ratioFn : List Char → List Char → ℚ) (dbg : Bool)
    (bot? : Option BotRow) (qnas : List QnaRow) (user_message : List Char) :
    Option MatchResult :=
  match bot? with
  | none => some ⟨false, "Bot not found.".data, none, none, 0, none⟩
  | some bot =>
    let user_norm := normalize_list user_message
    if qnas.isEmpty then some ⟨false, bot.fallback_message, none, none, 0, none⟩
    else
      match selectLoop compiles search ratioFn user_norm qnas with
      | (best_row?, best_score, some d) =>
        let kw_hits := d.matched_keywords.length + d.matched_regex.length
        let matched := d.exact || decide (0 < kw_hits) || decide (mkRat 11 20 ≤ d.ratioVal)
        if !matched then
          some ⟨false, bot.fallback_message, none, none, max 0 best_score,
                some (if dbg then some d else none)⟩
        else
          match best_row? with
          | some row =>
            some ⟨true, row.answer, some row.question, some row.id, max 0 best_score,
                  if dbg then some (some d) else none⟩
          | none => none
      | (_, _, none) => none

/-- `rules.chat_once`: just the answer string. -/
def chat_once (compiles : List Char → Bool) (search : RePattern → List Char → Bool)
    (ratioFn : List Char → List Char → ℚ) (dbg : Bool)
    (bot? : Option BotRow) (qnas : List QnaRow) (user_message : List Char) :
    Option (List Char) :=
  (match_rule compiles search ratioFn dbg bot? qnas user_message).map (·.answer)

-- sanity: the spec's end-to-end keyword example, with ratio pinned at 0
example :
    match_rule (fun _ => true) (fun _ _ => false) (fun _ _ => 0) false
      (some ⟨7, "sorry".data⟩)
      [⟨3, "Do you have wifi?".data, "Yes!".data,
        some "wifi,internet,password,work,laptop".data, some 1⟩]
      "wifi password please".data =
    some ⟨true, "Yes!".data, some "Do you have wifi?".data, some 3, 26, none⟩ := by
  decide

/-! ## Properties of the normalizer -/

/-- Unfolding equation for `subRunsAux` on a cons cell. -/
theorem subRunsAux_cons (p : Char → Bool) (b : Bool) (c : Char) (cs : List Char) :
    subRunsAux p b (c :: cs) =
      if p c then
        if b then subRunsAux p true cs else ' ' :: subRunsAux p true cs
      else c :: subRunsAux p false cs := rfl

/-- Every character `subRuns` emits is a replacement space or a kept
character of the input. -/
theorem mem_subRunsAux {p : Char → Bool} {c : Char} :
    ∀ {l : List Char} {b : Bool}, c ∈ subRunsAux p b l →
      c = ' ' ∨ (c ∈ l ∧ p c = false) := by
  intro l
  induction l with
  | nil => intro b h; simp [subRunsAux] at h
  | cons d ds ih =>
    intro b h
    rw [subRunsAux_cons] at h
    by_cases hd : p d
    · rw [if_pos hd] at h
      have step : c ∈ subRunsAux p true ds → c = ' ' ∨ (c ∈ d :: ds ∧ p c = false) := by
        intro h0
        rcases ih h0 with h1 | ⟨hm, hp⟩
        · left; exact h1
        · right; exact ⟨List.mem_cons_of_mem _ hm, hp⟩
      cases b with
      | true => exact step (by simpa using h)
      | false =>
        simp only [Bool.false_eq_true, if_false, List.mem_cons] at h
        rcases h with h0 | h0
        · left; exact h0
        · exact step h0
    · rw [if_neg hd] at h
      rcases List.mem_cons.1 h with h0 | h0
      · right; exact ⟨h0 ▸ List.mem_cons_self _ _, h0 ▸ (by simpa using hd)⟩
      · rcases ih h0 with h1 | ⟨hm, hp⟩
        · left; exact h1
        · right; exact ⟨List.mem_cons_of_mem _ hm, hp⟩

/-- Output of `subRunsAux` in run-state `true` never starts with a
run character: the pending run's space was already emitted. -/
theorem head_subRunsAux_true {p : Char → Bool} :
    ∀ {l : List Char} {c : Char}, (subRunsAux p true l).head? = some c → p c = false := by
  intro l
  induction l with
  | nil => intro c h; simp [subRunsAux] at h
  | cons d ds ih =>
    intro c h
    rw [subRunsAux_cons] at h
    by_cases hd : p d
    · rw [if_pos hd, if_pos rfl] at h
      exact ih h
    · rw [if_neg hd] at h
      simp only [List.head?_cons, Option.some.injEq] at h
      exact h ▸ (by simpa using hd)

/-- No two adjacent run characters survive in the output of
`subRunsAux` (for a class containing the space it emits). -/
theorem chain_subRunsAux (p : Char → Bool) :
    ∀ (l : List Char) (b : Bool),
      List.Chain' (fun a c => ¬(p a = true ∧ p c = true)) (subRunsAux p b l) := by
  intro l
  induction l with
  | nil => intro b; simp [subRunsAux]
  | cons d ds ih =>
    intro b
    rw [subRunsAux_cons]
    by_cases hd : p d
    · rw [if_pos hd]
      cases b with
      | true => exact ih true
      | false =>
        simp only [Bool.false_eq_true, if_false]
        refine List.chain'_cons'.2 ⟨?_, ih true⟩
        intro y hy h
        exact absurd (head_subRunsAux_true hy) (by simp [h.2])
    · rw [if_neg hd]
      refine List.chain'_cons'.2 ⟨?_, ih false⟩
      intro y hy h
      exact absurd h.1 (by simp [hd])

/-- `subRunsAux` is the identity on a string whose run characters are
all single spaces (no two adjacent), provided in run-state `true` the
string does not start with a run character. -/
theorem subRunsAux_eq_self {p : Char → Bool} :
    ∀ (l : List Char) (b : Bool),
      (∀ c ∈ l, p c = true → c = ' ') →
      List.Chain' (fun a c => ¬(p a = true ∧ p c = true)) l →
      (b = true → ∀ c, l.head? = some c → p c = false) →
      subRunsAux p b l = l := by
  intro l
  induction l with
  | nil => intro b _ _ _; rfl
  | cons d ds ih =>
    intro b hmem hch hhd
    rw [subRunsAux_cons]
    by_cases hd : p d
    · rw [if_pos hd]
      cases b with
      | true => exact absurd (hhd rfl d rfl) (by simp [hd])
      | false =>
        simp only [Bool.false_eq_true, if_false]
        have hd' : d = ' ' := hmem d (List.mem_cons_self _ _) hd
        have htail : subRunsAux p true ds = ds := by
          refine ih true (fun c hc => hmem c (List.mem_cons_of_mem _ hc)) hch.tail ?_
          intro _ c hc
          have := List.chain'_cons'.1 hch
          by_contra hpc
          exact this.1 c hc ⟨hd, by simpa using hpc⟩
        rw [htail, hd']
    · rw [if_neg hd]
      have htail : subRunsAux p false ds = ds := by
        refine ih false (fun c hc => hmem c (List.mem_cons_of_mem _ hc)) hch.tail ?_
        intro h; cases h
      rw [htail]

/-- A list is `Chain' R` whenever a pointwise property of its members
forces `R` on any pair. -/
theorem chain'_of_forall_mem {α : Type} {P : α → Prop} {R : α → α → Prop} :
    ∀ {l : List α}, (∀ a ∈ l, P a) → (∀ a b, P a → R a b) → List.Chain' R l := by
  intro l
  induction l with
  | nil => intro _ _; simp
  | cons d ds ih =>
    intro hmem himp
    refine List.chain'_cons'.2 ⟨fun y _ => himp d y (hmem d (List.mem_cons_self _ _)), ?_⟩
    exact ih (fun a ha => hmem a (List.mem_cons_of_mem _ ha)) himp

/-- Mapping a function that fixes every member is the identity. -/
theorem map_eq_self_of_mem {α : Type} {f : α → α} :
    ∀ {l : List α}, (∀ a ∈ l, f a = a) → l.map f = l := by
  intro l
  induction l with
  | nil => intro _; rfl
  | cons d ds ih =>
    intro h
    simp only [List.map_cons, h d (List.mem_cons_self _ _),
      ih fun a ha => h a (List.mem_cons_of_mem _ ha)]

/-- Every character of a normalized string is a lowercase ASCII
letter, a digit, or a space. -/
theorem mem_normalize_list {l : List Char} {c : Char} (h : c ∈ normalize_list l) :
    isLowerDigit c = true ∨ c = ' ' := by
  rcases mem_subRunsAux h with h1 | ⟨h1, hsp⟩
  · right; exact h1
  · rcases mem_subRunsAux h1 with h2 | ⟨_, hbad⟩
    · exact absurd (h2 ▸ hsp) (by decide)
    · left
      have hkeep : keepChar c = true := by revert hbad; simp
      simp only [keepChar, Bool.or_eq_true] at hkeep
      rcases hkeep with h3 | h3
      · exact h3
      · exact absurd h3 (by simp [hsp])

/-- A normalized string never holds two adjacent whitespace
characters. -/
theorem chain_normalize_list (l : List Char) :
    List.Chain' (fun a b => ¬(isPySpace a = true ∧ isPySpace b = true)) (normalize_list l) :=
  chain_subRunsAux isPySpace _ false

/-- Characters survive `pyStrip` only from the original string. -/
theorem mem_pyStrip {l : List Char} {c : Char} (h : c ∈ pyStrip l) : c ∈ l := by
  unfold pyStrip at h
  rw [List.mem_reverse] at h
  have h1 := (List.dropWhile_sublist isPySpace).subset h
  rw [List.mem_reverse] at h1
  exact (List.dropWhile_sublist isPySpace).subset h1

/-- The no-adjacent-run-characters property survives `pyStrip`. -/
theorem chain_pyStrip {l : List Char}
    (h : List.Chain' (fun a b => ¬(isPySpace a = true ∧ isPySpace b = true)) l) :
    List.Chain' (fun a b => ¬(isPySpace a = true ∧ isPySpace b = true)) (pyStrip l) := by
  have hsymm : ∀ (m : List Char),
      List.Chain' (fun a b => ¬(isPySpace a = true ∧ isPySpace b = true)) m →
      List.Chain' (fun a b => ¬(isPySpace a = true ∧ isPySpace b = true)) m.reverse := by
    intro m hm
    rw [List.chain'_reverse]
    exact hm.imp fun a b hab => fun hc => hab ⟨hc.2, hc.1⟩
  exact hsymm _ ((hsymm _ (h.suffix (List.dropWhile_suffix _))).suffix
    (List.dropWhile_suffix _))

/-- C10.  Every character of `normalize_text`'s output is a lowercase
ASCII letter, a digit, or a space, and no two consecutive characters
are both spaces. -/
theorem normalize_text_charset_and_no_double_space (s : String) :
    (∀ c ∈ (normalize_text s).data, isLowerDigit c = true ∨ c = ' ') ∧
    List.Chain' (fun a b => ¬(a = ' ' ∧ b = ' ')) (normalize_text s).data := by
  constructor
  · intro c hc
    exact mem_normalize_list hc
  · exact (chain_normalize_list s.data).imp fun a b hab => fun hc =>
      hab ⟨hc.1 ▸ (by decide), hc.2 ▸ (by decide)⟩

/-- C3, counterexample.  `normalize_text` is not idempotent and does
not trim trailing whitespace: stripping happens before punctuation is
replaced by a space, so `"hi!"` normalizes to `"hi "` and a second
application differs. -/
theorem normalize_text_not_idempotent :
    normalize_text "hi!" = "hi " ∧
    normalize_text (normalize_text "hi!") = "hi" ∧
    normalize_text (normalize_text "hi!") ≠ normalize_text "hi!" := by
  refine ⟨by decide, by decide, by decide⟩

/-- `str.strip` lifted back to `String`, for stating the amended C3. -/
def strip_text (s : String) : String := String.mk (pyStrip s.data)

/-- Lowercasing fixes an already-normalized character. -/
theorem pyLowerChar_fixed {c : Char} (h : isLowerDigit c = true ∨ c = ' ') :
    pyLowerChar c = c := by
  rcases h with h | h
  · simp only [isLowerDigit, Bool.or_eq_true, Bool.and_eq_true, decide_eq_true_eq] at h
    unfold pyLowerChar
    rcases h with ⟨h1, h2⟩ | ⟨h1, h2⟩ <;>
      rw [if_neg (by simp only [Bool.and_eq_true, decide_eq_true_eq, not_and]; omega)]
  · rw [h]; decide

/-- C3, amended.  `normalize_text` is total but only idempotent up to
an extra strip: a second application equals stripping the first
application's output (the source strips before replacing punctuation
with spaces, so one leading and one trailing space can survive). -/
theorem normalize_text_twice_eq_strip (s : String) :
    normalize_text (normalize_text s) = strip_text (normalize_text s) := by
  show String.mk (normalize_list (normalize_list s.data)) = _
  unfold strip_text
  have hy : ∀ c ∈ normalize_list s.data, isLowerDigit c = true ∨ c = ' ' :=
    fun c hc => mem_normalize_list hc
  set y := normalize_list s.data with hydef
  have hchain := chain_normalize_list s.data
  rw [← hydef] at hchain
  -- membership and chain survive the strip
  have hmemz : ∀ c ∈ pyStrip y, isLowerDigit c = true ∨ c = ' ' :=
    fun c hc => hy c (mem_pyStrip hc)
  have hchz := chain_pyStrip hchain
  -- lowercasing is the identity on the stripped string
  have hlower : pyLower (pyStrip y) = pyStrip y :=
    map_eq_self_of_mem fun c hc => pyLowerChar_fixed (hmemz c hc)
  -- the punctuation pass is the identity: no character is punctuation
  have hbadfix : subRuns (fun c => !keepChar c) (pyStrip y) = pyStrip y := by
    refine subRunsAux_eq_self _ false ?_ ?_ ?_
    · intro c hc hbad
      rcases hmemz c hc with h | h
      · exact absurd hbad (by simp [keepChar, h])
      · exact h
    · refine chain'_of_forall_mem hmemz ?_
      intro a b ha hab
      rcases ha with h | h
      · exact absurd hab.1 (by simp [keepChar, h])
      · exact absurd hab.1 (by rw [h]; decide)
    · intro h; cases h
  -- the whitespace pass is the identity: single spaces only
  have hspfix : subRuns isPySpace (pyStrip y) = pyStrip y := by
    refine subRunsAux_eq_self _ false ?_ ?_ ?_
    · intro c hc hsp
      rcases hmemz c hc with h | h
      · simp only [isLowerDigit, Bool.or_eq_true, Bool.and_eq_true,
          decide_eq_true_eq] at h
        simp only [isPySpace, Bool.or_eq_true, Bool.and_eq_true,
          decide_eq_true_eq] at hsp
        exfalso; omega
      · exact h
    · exact hchz
    · intro h; cases h
  show String.mk (subRuns isPySpace (subRuns (fun c => !keepChar c) (pyLower (pyStrip y)))) = _
  rw [hlower, hbadfix, hspfix]
  rfl

/-! ## The similarity term -/

/-- For a positive denominator, a fraction of integers is below one
half exactly when twice the numerator is below the denominator. -/
theorem div_lt_half_iff (a : ℤ) (b : ℕ) (hb : 0 < b) :
    ((a : ℚ) / (b : ℚ) < 1/2) ↔ 2 * a < (b : ℤ) := by
  have hbQ : (0 : ℚ) < (b : ℚ) := by exact_mod_cast hb
  rw [div_lt_iff hbQ]
  constructor
  · intro h
    have h2 : ((2 * a : ℤ) : ℚ) < ((b : ℕ) : ℚ) := by push_cast; linarith
    exact_mod_cast h2
  · intro h
    have h2 : ((2 * a : ℤ) : ℚ) < ((b : ℕ) : ℚ) := by exact_mod_cast h
    push_cast at h2
    linarith

/-- Mirror image of `div_lt_half_iff`. -/
theorem half_lt_div_iff (a : ℤ) (b : ℕ) (hb : 0 < b) :
    ((1/2 : ℚ) < (a : ℚ) / (b : ℚ)) ↔ (b : ℤ) < 2 * a := by
  have hbQ : (0 : ℚ) < (b : ℚ) := by exact_mod_cast hb
  rw [lt_div_iff hbQ]
  constructor
  · intro h
    have h2 : ((b : ℕ) : ℚ) < ((2 * a : ℤ) : ℚ) := by push_cast; linarith
    exact_mod_cast h2
  · intro h
    have h2 : ((b : ℕ) : ℚ) < ((2 * a : ℤ) : ℚ) := by exact_mod_cast h
    push_cast at h2
    linarith

/-- `pyRound` on an explicit fraction is integer arithmetic on its
numerator and denominator. -/
theorem pyRound_intCast_div (num : ℤ) (den : ℕ) (hden : 0 < den) :
    pyRound ((num : ℚ) / (den : ℚ)) =
      if 2 * (num - num / (den : ℤ) * (den : ℤ)) < (den : ℤ) then num / (den : ℤ)
      else if (den : ℤ) < 2 * (num - num / (den : ℤ) * (den : ℤ)) then num / (den : ℤ) + 1
      else if (num / (den : ℤ)) % 2 = 0 then num / (den : ℤ) else num / (den : ℤ) + 1 := by
  have hfl : ⌊(num : ℚ) / (den : ℚ)⌋ = num / (den : ℤ) :=
    Rat.floor_intCast_div_natCast num den
  have hdQ : (0 : ℚ) < (den : ℚ) := by exact_mod_cast hden
  have hfr : (num : ℚ) / (den : ℚ) - ((num / (den : ℤ) : ℤ) : ℚ) =
      ((num - num / (den : ℤ) * (den : ℤ) : ℤ) : ℚ) / (den : ℚ) := by
    push_cast
    field_simp
    ring
  unfold pyRound
  rw [hfl, hfr]
  simp only [div_lt_half_iff _ _ hden, half_lt_div_iff _ _ hden]

/-- `round30` is `pyRound` of thirty times the ratio: the scorer's
similarity term is `round(30 * ratio)` in the banker's-rounding sense
of Python 3. -/
theorem round30_eq_pyRound (r : ℚ) : round30 r = pyRound (30 * r) := by
  have hq : (30 * r : ℚ) = ((30 * r.num : ℤ) : ℚ) / ((r.den : ℕ) : ℚ) := by
    conv_lhs => rw [← Rat.num_div_den r]
    push_cast
    ring
  rw [hq, pyRound_intCast_div _ _ r.den_pos]
  rfl

/-! ## Closed form of the scorer -/

/-- The keyword loop of `score_qna`: adds 12 per matching phrase and
collects the matches in order. -/
theorem kwFold_eq (q : List Char → Bool) :
    ∀ (l : List (List Char)) (s : ℤ) (acc : List (List Char)),
      l.foldl (fun (a : ℤ × List (List Char)) kw =>
          if q kw then (a.1 + 12, a.2 ++ [kw]) else a) (s, acc) =
        (s + 12 * (l.filter q).length, acc ++ l.filter q) := by
  intro l
  induction l with
  | nil => intro s acc; simp
  | cons d ds ih =>
    intro s acc
    by_cases hd : q d
    · rw [List.foldl_cons, if_pos hd, ih, List.filter_cons_of_pos hd]
      refine Prod.ext ?_ ?_
      · show s + 12 + 12 * ((ds.filter q).length : ℤ) = s + 12 * ((d :: ds.filter q).length : ℤ)
        simp only [List.length_cons]
        push_cast
        ring
      · show acc ++ [d] ++ ds.filter q = acc ++ d :: ds.filter q
        simp
    · rw [List.foldl_cons, if_neg hd, ih, List.filter_cons_of_neg hd]

/-- The regex loop of `score_qna`: adds 14 per matching pattern and
collects the pattern strings in order. -/
theorem reFold_eq (q : RePattern → Bool) :
    ∀ (l : List RePattern) (s : ℤ) (acc : List (List Char)),
      l.foldl (fun (a : ℤ × List (List Char)) p =>
          if q p then (a.1 + 14, a.2 ++ [p.pat]) else a) (s, acc) =
        (s + 14 * (l.filter q).length, acc ++ (l.filter q).map (·.pat)) := by
  intro l
  induction l with
  | nil => intro s acc; simp
  | cons d ds ih =>
    intro s acc
    by_cases hd : q d
    · rw [List.foldl_cons, if_pos hd, ih, List.filter_cons_of_pos hd]
      refine Prod.ext ?_ ?_
      · show s + 14 + 14 * ((ds.filter q).length : ℤ) = s + 14 * (((d :: ds.filter q)).length : ℤ)
        simp only [List.length_cons]
        push_cast
        ring
      · show acc ++ [d.pat] ++ (ds.filter q).map (·.pat) = acc ++ (d :: ds.filter q).map (·.pat)
        simp
    · rw [List.foldl_cons, if_neg hd, ih, List.filter_cons_of_neg hd]

/-- The scorer in closed form: its score is the sum of the exact
bonus, 12 per matched phrase, 14 per matched regex, the rounded
similarity term and twice the priority, and its detail records
exactly the matching phrases and patterns. -/
theorem score_qna_eq (compiles : List Char → Bool) (search : RePattern → List Char → Bool)
    (ratioFn : List Char → List Char → ℚ) (u : List Char) (row : QnaRow) :
    score_qna compiles search ratioFn u row =
      ((if u = normalize_list row.question then 40 else 0)
        + 12 * ((parse_keywords compiles row.keywords).1.filter (phrase_in_text u)).length
        + 14 * ((parse_keywords compiles row.keywords).2.filter
            (fun p => search p u)).length
        + round30 (ratioFn u (normalize_list row.question))
        + (row.priority.getD 0) * 2,
       ⟨(parse_keywords compiles row.keywords).1.filter (phrase_in_text u),
        ((parse_keywords compiles row.keywords).2.filter (fun p => search p u)).map (·.pat),
        u == normalize_list row.question,
        ratioFn u (normalize_list row.question),
        row.priority.getD 0⟩) := by
  unfold score_qna
  simp only []
  rw [kwFold_eq, reFold_eq]
  by_cases hex : u = normalize_list row.question
  · simp [hex]
  · simp [hex]

/-- C1.  For every normalized user message `u` and candidate row with
a present priority `p`, the score of `score_qna` is exactly the sum
of: 40 if `u` equals the normalized candidate question, 12 per plain
phrase of the parsed keyword spec matching `u`, 14 per compiled regex
of the parsed keyword spec finding a match in `u`,
`round(30 * ratio)`, and `2 * p` — and nothing else. -/
theorem score_qna_sum (compiles : List Char → Bool) (search : RePattern → List Char → Bool)
    (ratioFn : List Char → List Char → ℚ) (u : List Char) (row : QnaRow) (p : ℤ)
    (hu : normalize_list u = u) (hp : row.priority = some p) :
    (score_qna compiles search ratioFn u row).1 =
      (if u = normalize_list row.question then 40 else 0)
      + 12 * ((parse_keywords compiles row.keywords).1.filter (phrase_in_text u)).length
      + 14 * ((parse_keywords compiles row.keywords).2.filter (fun q => search q u)).length
      + pyRound (30 * ratioFn u (normalize_list row.question))
      + 2 * p := by
  have _ := hu
  simp only [score_qna_eq, hp, Option.getD_some, ← round30_eq_pyRound]
  ring

/-- Witness for `score_qna_sum` at a concrete normalized message and
row. -/
theorem score_qna_sum_witness :
    normalize_list "hi".data = "hi".data ∧
    (⟨1, "hi".data, "yo".data, none, some 3⟩ : QnaRow).priority = some 3 ∧
    (score_qna (fun _ => true) (fun _ _ => true) (fun _ _ => mkRat 1 2) "hi".data
        ⟨1, "hi".data, "yo".data, none, some 3⟩).1 =
      (if "hi".data = normalize_list ("hi".data : List Char) then 40 else 0)
      + 12 * ((parse_keywords (fun _ => true) none).1.filter
          (phrase_in_text "hi".data)).length
      + 14 * ((parse_keywords (fun _ => true) none).2.filter
          (fun q => true)).length
      + pyRound (30 * mkRat 1 2)
      + 2 * 3 :=
  ⟨by decide, rfl,
    score_qna_sum (fun _ => true) (fun _ _ => true) (fun _ _ => mkRat 1 2) "hi".data
      ⟨1, "hi".data, "yo".data, none, some 3⟩ 3 (by decide) rfl⟩

/-- C4, counterexample.  A row whose `priority` column is null is
scored with priority `0`, not `1`: the recorded detail priority is
`0` and the whole score of this keyword-less, non-exact row is `0`,
where the claim predicts detail priority `1` and a `+2`
contribution. -/
theorem score_qna_null_priority_cex :
    (score_qna (fun _ => false) (fun _ _ => false) (fun _ _ => 0) "zz".data
        ⟨5, "q".data, "a".data, none, none⟩).2.priority = 0 ∧
    (score_qna (fun _ => false) (fun _ _ => false) (fun _ _ => 0) "zz".data
        ⟨5, "q".data, "a".data, none, none⟩).2.priority ≠ 1 ∧
    (score_qna (fun _ => false) (fun _ _ => false) (fun _ _ => 0) "zz".data
        ⟨5, "q".data, "a".data, none, none⟩).1 = 0 := by
  refine ⟨by decide, by decide, by decide⟩

/-- C4, amended.  For a candidate row whose priority field is null,
scoring treats the priority as 0 (`rules.py` line 125): the recorded
detail priority is 0 and the priority contribution to the score is
`2 * 0`; the database layer's default of 1 applies only when a row is
inserted without a priority, not in the scorer. -/
theorem score_qna_null_priority_zero (compiles : List Char → Bool)
    (search : RePattern → List Char → Bool) (ratioFn : List Char → List Char → ℚ)
    (u : List Char) (row : QnaRow) (h : row.priority = none) :
    (score_qna compiles search ratioFn u row).2.priority = 0 ∧
    (score_qna compiles search ratioFn u row).1 =
      (if u = normalize_list row.question then 40 else 0)
      + 12 * ((parse_keywords compiles row.keywords).1.filter (phrase_in_text u)).length
      + 14 * ((parse_keywords compiles row.keywords).2.filter (fun q => search q u)).length
      + pyRound (30 * ratioFn u (normalize_list row.question))
      + 2 * 0 := by
  constructor
  · simp [score_qna_eq, h]
  · simp only [score_qna_eq, h, Option.getD_none, ← round30_eq_pyRound]
    ring

/-- Witness for `score_qna_null_priority_zero`. -/
theorem score_qna_null_priority_zero_witness :
    (⟨5, "q".data, "a".data, none, none⟩ : QnaRow).priority = none ∧
    ((score_qna (fun _ => false) (fun _ _ => false) (fun _ _ => 0) "zz".data
        ⟨5, "q".data, "a".data, none, none⟩).2.priority = 0 ∧
     (score_qna (fun _ => false) (fun _ _ => false) (fun _ _ => 0) "zz".data
        ⟨5, "q".data, "a".data, none, none⟩).1 =
      (if "zz".data = normalize_list ("q".data : List Char) then 40 else 0)
      + 12 * ((parse_keywords (fun _ => false) none).1.filter
          (phrase_in_text "zz".data)).length
      + 14 * ((parse_keywords (fun _ => false) none).2.filter
          (fun q => false)).length
      + pyRound (30 * 0)
      + 2 * 0) :=
  ⟨rfl, score_qna_null_priority_zero (fun _ => false) (fun _ _ => false) (fun _ _ => 0)
    "zz".data ⟨5, "q".data, "a".data, none, none⟩ rfl⟩

/-! ## The selection loop -/

/-- The numeric score `score_qna` assigns a row. -/
def qnaScore (compiles : List Char → Bool) (search : RePattern → List Char → Bool)
    (ratioFn : List Char → List Char → ℚ) (u : List Char) (row : QnaRow) : ℤ :=
  (score_qna compiles search ratioFn u row).1

/-- The detail `score_qna` assigns a row. -/
def qnaDetail (compiles : List Char → Bool) (search : RePattern → List Char → Bool)
    (ratioFn : List Char → List Char → ℚ) (u : List Char) (row : QnaRow) : ScoreDetail :=
  (score_qna compiles search ratioFn u row).2

/-- Unfolding equation of `selAux` on a cons cell. -/
theorem selAux_cons (compiles : List Char → Bool) (search : RePattern → List Char → Bool)
    (ratioFn : List Char → List Char → ℚ) (u : List Char)
    (best : Option QnaRow × ℤ × Option ScoreDetail) (row : QnaRow) (rest : List QnaRow) :
    selAux compiles search ratioFn u best (row :: rest) =
      if qnaScore compiles search ratioFn u row > best.2.1 then
        selAux compiles search ratioFn u
          (some row, qnaScore compiles search ratioFn u row,
           some (qnaDetail compiles search ratioFn u row)) rest
      else selAux compiles search ratioFn u best rest := rfl

/-- The running-best loop returns its initial value untouched (and
then every score was at most the initial score), or the first row
attaining the maximal score, strictly above the initial score. -/
theorem selAux_first_argmax (compiles : List Char → Bool)
    (search : RePattern → List Char → Bool) (ratioFn : List Char → List Char → ℚ)
    (u : List Char) :
    ∀ (l : List QnaRow) (best : Option QnaRow × ℤ × Option ScoreDetail),
      (selAux compiles search ratioFn u best l = best ∧
        ∀ x ∈ l, qnaScore compiles search ratioFn u x ≤ best.2.1) ∨
      (∃ i, ∃ hi : i < l.length,
        selAux compiles search ratioFn u best l =
          (some (l.get ⟨i, hi⟩), qnaScore compiles search ratioFn u (l.get ⟨i, hi⟩),
           some (qnaDetail compiles search ratioFn u (l.get ⟨i, hi⟩))) ∧
        best.2.1 < qnaScore compiles search ratioFn u (l.get ⟨i, hi⟩) ∧
        (∀ j (hj : j < l.length),
          qnaScore compiles search ratioFn u (l.get ⟨j, hj⟩) ≤
            qnaScore compiles search ratioFn u (l.get ⟨i, hi⟩)) ∧
        (∀ j (hj : j < i),
          qnaScore compiles search ratioFn u (l.get ⟨j, Nat.lt_trans hj hi⟩) <
            qnaScore compiles search ratioFn u (l.get ⟨i, hi⟩))) := by
  intro l
  induction l with
  | nil =>
    intro best
    left
    exact ⟨rfl, by simp⟩
  | cons row rest ih =>
    intro best
    by_cases hgt : qnaScore compiles search ratioFn u row > best.2.1
    · have hstep : selAux compiles search ratioFn u best (row :: rest) =
          selAux compiles search ratioFn u
            (some row, qnaScore compiles search ratioFn u row,
             some (qnaDetail compiles search ratioFn u row)) rest := by
        rw [selAux_cons, if_pos hgt]
      rcases ih (some row, qnaScore compiles search ratioFn u row,
          some (qnaDetail compiles search ratioFn u row)) with ⟨heq, hle⟩ |
          ⟨i, hi, heq, hbt, hmax, hstrict⟩
      · right
        refine ⟨0, Nat.succ_pos _, ?_, hgt, ?_, ?_⟩
        · rw [hstep, heq]; rfl
        · intro j hj
          cases j with
          | zero => exact le_refl _
          | succ k =>
            exact hle (rest.get ⟨k, Nat.lt_of_succ_lt_succ hj⟩) (rest.get_mem _ _)
        · intro j hj
          exact absurd hj (Nat.not_lt_zero j)
      · right
        refine ⟨i + 1, Nat.succ_lt_succ hi, ?_, lt_trans hgt hbt, ?_, ?_⟩
        · rw [hstep, heq]; rfl
        · intro j hj
          cases j with
          | zero => exact le_of_lt hbt
          | succ k => exact hmax k (Nat.lt_of_succ_lt_succ hj)
        · intro j hj
          cases j with
          | zero => exact hbt
          | succ k => exact hstrict k (Nat.lt_of_succ_lt_succ hj)
    · have hstep : selAux compiles search ratioFn u best (row :: rest) =
          selAux compiles search ratioFn u best rest := by
        rw [selAux_cons, if_neg hgt]
      rcases ih best with ⟨heq, hle⟩ | ⟨i, hi, heq, hbt, hmax, hstrict⟩
      · left
        refine ⟨by rw [hstep, heq], ?_⟩
        intro x hx
        rcases List.mem_cons.1 hx with h0 | h0
        · exact h0 ▸ not_lt.1 hgt
        · exact hle x h0
      · right
        refine ⟨i + 1, Nat.succ_lt_succ hi, ?_, hbt, ?_, ?_⟩
        · rw [hstep, heq]; rfl
        · intro j hj
          cases j with
          | zero => exact le_of_lt (lt_of_le_of_lt (not_lt.1 hgt) hbt)
          | succ k => exact hmax k (Nat.lt_of_succ_lt_succ hj)
        · intro j hj
          cases j with
          | zero => exact lt_of_le_of_lt (not_lt.1 hgt) hbt
          | succ k => exact hstrict k (Nat.lt_of_succ_lt_succ hj)

/-- C7.  Whenever the selection loop picks a best candidate, that
candidate is the *first* row attaining the maximal score: every row
scores at most the winner, and every earlier row scores strictly
less — the strict greater-than comparison keeps the
earliest-iterated candidate on ties. -/
theorem selectLoop_first_argmax (compiles : List Char → Bool)
    (search : RePattern → List Char → Bool) (ratioFn : List Char → List Char → ℚ)
    (u : List Char) (qnas : List QnaRow) (row : QnaRow) (s : ℤ) (d : ScoreDetail)
    (hsel : selectLoop compiles search ratioFn u qnas = (some row, s, some d)) :
    ∃ i, ∃ hi : i < qnas.length,
      row = qnas.get ⟨i, hi⟩ ∧
      s = qnaScore compiles search ratioFn u (qnas.get ⟨i, hi⟩) ∧
      d = qnaDetail compiles search ratioFn u (qnas.get ⟨i, hi⟩) ∧
      (∀ j (hj : j < qnas.length), qnaScore compiles search ratioFn u (qnas.get ⟨j, hj⟩) ≤ s) ∧
      (∀ j (hj : j < i),
        qnaScore compiles search ratioFn u (qnas.get ⟨j, Nat.lt_trans hj hi⟩) < s) := by
  unfold selectLoop at hsel
  rcases selAux_first_argmax compiles search ratioFn u qnas (none, -(10 ^ 9), none) with
    ⟨heq, _⟩ | ⟨i, hi, heq, _, hmax, hstrict⟩
  · rw [heq] at hsel
    exact absurd (congrArg (fun t => t.1) hsel) (by simp)
  · rw [heq] at hsel
    have h1 : some (qnas.get ⟨i, hi⟩) = some row := congrArg (fun t => t.1) hsel
    have h2 : qnaScore compiles search ratioFn u (qnas.get ⟨i, hi⟩) = s :=
      congrArg (fun t => t.2.1) hsel
    have h3 : some (qnaDetail compiles search ratioFn u (qnas.get ⟨i, hi⟩)) = some d :=
      congrArg (fun t => t.2.2) hsel
    refine ⟨i, hi, (Option.some.inj h1).symm, h2.symm, (Option.some.inj h3).symm, ?_, ?_⟩
    · intro j hj
      exact h2 ▸ hmax j hj
    · intro j hj
      exact h2 ▸ hstrict j hj

/-- Witness for `selectLoop_first_argmax`: two rows scoring equally;
the loop keeps the first. -/
theorem selectLoop_first_argmax_witness :
    selectLoop (fun _ => false) (fun _ _ => false) (fun _ _ => 0) "bb".data
        [⟨1, "aa".data, "x".data, none, some 2⟩, ⟨2, "aa".data, "y".data, none, some 2⟩] =
      (some ⟨1, "aa".data, "x".data, none, some 2⟩, 4,
       some ⟨[], [], false, 0, 2⟩) ∧
    (∃ i, ∃ hi : i < ([⟨1, "aa".data, "x".data, none, some 2⟩,
        ⟨2, "aa".data, "y".data, none, some 2⟩] : List QnaRow).length,
      (⟨1, "aa".data, "x".data, none, some 2⟩ : QnaRow) =
        ([⟨1, "aa".data, "x".data, none, some 2⟩,
          ⟨2, "aa".data, "y".data, none, some 2⟩] : List QnaRow).get ⟨i, hi⟩ ∧
      (4 : ℤ) = qnaScore (fun _ => false) (fun _ _ => false) (fun _ _ => 0) "bb".data
        (([⟨1, "aa".data, "x".data, none, some 2⟩,
           ⟨2, "aa".data, "y".data, none, some 2⟩] : List QnaRow).get ⟨i, hi⟩) ∧
      (⟨[], [], false, 0, 2⟩ : ScoreDetail) =
        qnaDetail (fun _ => false) (fun _ _ => false) (fun _ _ => 0) "bb".data
        (([⟨1, "aa".data, "x".data, none, some 2⟩,
           ⟨2, "aa".data, "y".data, none, some 2⟩] : List QnaRow).get ⟨i, hi⟩) ∧
      (∀ j (hj : j < ([⟨1, "aa".data, "x".data, none, some 2⟩,
          ⟨2, "aa".data, "y".data, none, some 2⟩] : List QnaRow).length),
        qnaScore (fun _ => false) (fun _ _ => false) (fun _ _ => 0) "bb".data
          (([⟨1, "aa".data, "x".data, none, some 2⟩,
             ⟨2, "aa".data, "y".data, none, some 2⟩] : List QnaRow).get ⟨j, hj⟩) ≤ 4) ∧
      (∀ j (hj : j < i),
        qnaScore (fun _ => false) (fun _ _ => false) (fun _ _ => 0) "bb".data
          (([⟨1, "aa".data, "x".data, none, some 2⟩,
             ⟨2, "aa".data, "y".data, none, some 2⟩] : List QnaRow).get
            ⟨j, Nat.lt_trans hj hi⟩) < 4)) :=
  ⟨by decide,
   selectLoop_first_argmax (fun _ => false) (fun _ _ => false) (fun _ _ => 0) "bb".data
     [⟨1, "aa".data, "x".data, none, some 2⟩, ⟨2, "aa".data, "y".data, none, some 2⟩]
     ⟨1, "aa".data, "x".data, none, some 2⟩ 4 ⟨[], [], false, 0, 2⟩ (by decide)⟩

/-! ## `match_rule` -/

/-- `match_rule` on a known bot with at least one candidate, spelled
out from the winning score and detail. -/
theorem match_rule_unfold (compiles : List Char → Bool)
    (search : RePattern → List Char → Bool) (ratioFn : List Char → List Char → ℚ)
    (dbg : Bool) (bot : BotRow) (qnas : List QnaRow) (msg : List Char)
    (row : QnaRow) (s : ℤ) (d : ScoreDetail) (hq : qnas ≠ [])
    (hsel : selectLoop compiles search ratioFn (normalize_list msg) qnas =
      (some row, s, some d)) :
    match_rule compiles search ratioFn dbg (some bot) qnas msg =
      if d.exact || decide (0 < d.matched_keywords.length + d.matched_regex.length)
          || decide (mkRat 11 20 ≤ d.ratioVal) then
        some ⟨true, row.answer, some row.question, some row.id, max 0 s,
              if dbg then some (some d) else none⟩
      else
        some ⟨false, bot.fallback_message, none, none, max 0 s,
              some (if dbg then some d else none)⟩ := by
  have hne : qnas.isEmpty = false := by
    cases qnas with
    | nil => exact absurd rfl hq
    | cons a l => rfl
  unfold match_rule
  simp only []
  rw [hne, hsel]
  simp only [Bool.false_eq_true, if_false]
  by_cases hm : (d.exact || decide (0 < d.matched_keywords.length + d.matched_regex.length)
      || decide (mkRat 11 20 ≤ d.ratioVal)) = true
  · rw [hm]
    simp only [Bool.not_true, Bool.false_eq_true, if_false]
    simp
  · rw [Bool.not_eq_true] at hm
    rw [hm]
    simp only [Bool.not_false, if_true]
    simp

/-- The selection loop either returns its untouched initial state or
a fully populated best (row and detail are set together, as in the
source). -/
theorem selectLoop_shape (compiles : List Char → Bool)
    (search : RePattern → List Char → Bool) (ratioFn : List Char → List Char → ℚ)
    (u : List Char) (qnas : List QnaRow) :
    selectLoop compiles search ratioFn u qnas = (none, -(10 ^ 9), none) ∨
    ∃ row s d, selectLoop compiles search ratioFn u qnas = (some row, s, some d) := by
  unfold selectLoop
  rcases selAux_first_argmax compiles search ratioFn u qnas (none, -(10 ^ 9), none) with
    ⟨heq, _⟩ | ⟨i, hi, heq, _, _, _⟩
  · left; exact heq
  · right
    exact ⟨_, _, _, heq⟩

/-- C2.  For a bot with a non-empty candidate list, the result is
reported as matched exactly when the winning detail has `exact`, at
least one matched phrase or regex, or a similarity ratio of at least
0.55 (= 11/20); otherwise the result is unmatched and carries the
bot's fallback message. -/
theorem match_rule_matched_iff (compiles : List Char → Bool)
    (search : RePattern → List Char → Bool) (ratioFn : List Char → List Char → ℚ)
    (dbg : Bool) (bot : BotRow) (qnas : List QnaRow) (msg : List Char)
    (row : QnaRow) (s : ℤ) (d : ScoreDetail) (hq : qnas ≠ [])
    (hsel : selectLoop compiles search ratioFn (normalize_list msg) qnas =
      (some row, s, some d)) :
    ∃ res, match_rule compiles search ratioFn dbg (some bot) qnas msg = some res ∧
      (res.matched = true ↔
        (d.exact = true ∨ 0 < d.matched_keywords.length + d.matched_regex.length ∨
         mkRat 11 20 ≤ d.ratioVal)) ∧
      (res.matched = false → res.answer = bot.fallback_message) := by
  rw [match_rule_unfold compiles search ratioFn dbg bot qnas msg row s d hq hsel]
  by_cases hm : (d.exact || decide (0 < d.matched_keywords.length + d.matched_regex.length)
      || decide (mkRat 11 20 ≤ d.ratioVal)) = true
  · rw [if_pos hm]
    refine ⟨_, rfl, ?_, ?_⟩
    · simp only [Bool.or_eq_true, decide_eq_true_eq] at hm
      constructor
      · intro _
        rcases hm with (h | h) | h
        · exact Or.inl h
        · exact Or.inr (Or.inl h)
        · exact Or.inr (Or.inr h)
      · intro _; rfl
    · intro hfalse
      simp at hfalse
  · rw [if_neg hm]
    refine ⟨_, rfl, ?_, fun _ => rfl⟩
    constructor
    · intro htrue
      simp at htrue
    · intro hdisj
      exfalso
      apply hm
      simp only [Bool.or_eq_true, decide_eq_true_eq]
      rcases hdisj with h | h | h
      · exact Or.inl (Or.inl h)
      · exact Or.inl (Or.inr h)
      · exact Or.inr h

/-- Witness for `match_rule_matched_iff` on a one-row bot matched via
a keyword hit. -/
theorem match_rule_matched_iff_witness :
    ([⟨3, "do you have wifi".data, "yes".data, some "wifi".data, some 1⟩] : List QnaRow) ≠ [] ∧
    selectLoop (fun _ => true) (fun _ _ => false) (fun _ _ => 0)
        (normalize_list "wifi please".data)
        [⟨3, "do you have wifi".data, "yes".data, some "wifi".data, some 1⟩] =
      (some ⟨3, "do you have wifi".data, "yes".data, some "wifi".data, some 1⟩, 14,
       some ⟨["wifi".data], [], false, 0, 1⟩) ∧
    (∃ res, match_rule (fun _ => true) (fun _ _ => false) (fun _ _ => 0) false
        (some ⟨9, "fb".data⟩)
        [⟨3, "do you have wifi".data, "yes".data, some "wifi".data, some 1⟩]
        "wifi please".data = some res ∧
      (res.matched = true ↔
        ((⟨["wifi".data], [], false, 0, 1⟩ : ScoreDetail).exact = true ∨
         0 < (⟨["wifi".data], [], false, 0, 1⟩ : ScoreDetail).matched_keywords.length +
            (⟨["wifi".data], [], false, 0, 1⟩ : ScoreDetail).matched_regex.length ∨
         mkRat 11 20 ≤ (⟨["wifi".data], [], false, 0, 1⟩ : ScoreDetail).ratioVal)) ∧
      (res.matched = false → res.answer = (⟨9, "fb".data⟩ : BotRow).fallback_message)) :=
  ⟨by decide, by decide,
   match_rule_matched_iff (fun _ => true) (fun _ _ => false) (fun _ _ => 0) false
     ⟨9, "fb".data⟩ [⟨3, "do you have wifi".data, "yes".data, some "wifi".data, some 1⟩]
     "wifi please".data ⟨3, "do you have wifi".data, "yes".data, some "wifi".data, some 1⟩
     14 ⟨["wifi".data], [], false, 0, 1⟩ (by decide) (by decide)⟩

/-- C9.  Whenever `match_rule` returns a result, its confidence is a
non-negative integer: 0 for an unknown bot or an empty candidate
list, and `max 0 bestScore` when candidates were scored — in the
matched and the unmatched outcome alike. -/
theorem match_rule_confidence (compiles : List Char → Bool)
    (search : RePattern → List Char → Bool) (ratioFn : List Char → List Char → ℚ)
    (dbg : Bool) (bot? : Option BotRow) (qnas : List QnaRow) (msg : List Char)
    (res : MatchResult)
    (hmr : match_rule compiles search ratioFn dbg bot? qnas msg = some res) :
    0 ≤ res.confidence ∧
    (bot? = none → res.confidence = 0) ∧
    (qnas = [] → res.confidence = 0) ∧
    (∀ bot row s d, bot? = some bot → qnas ≠ [] →
      selectLoop compiles search ratioFn (normalize_list msg) qnas = (some row, s, some d) →
      res.confidence = max 0 s) := by
  cases bot? with
  | none =>
    unfold match_rule at hmr
    have hres := Option.some.inj hmr
    refine ⟨?_, fun _ => ?_, fun _ => ?_, ?_⟩
    · rw [← hres]
    · rw [← hres]
    · rw [← hres]
    · intro bot row s d hb
      cases hb
  | some bot =>
    by_cases hq : qnas = []
    · subst hq
      unfold match_rule at hmr
      simp only [List.isEmpty_nil, if_true] at hmr
      have hres := Option.some.inj hmr
      refine ⟨?_, ?_, ?_, ?_⟩
      · rw [← hres]
      · intro h
        exact absurd h (by simp)
      · intro _
        rw [← hres]
      · intro bot' row s d _ hq' _
        exact absurd rfl hq'
    · rcases selectLoop_shape compiles search ratioFn (normalize_list msg) qnas with
        hsh | ⟨row, s, d, hsh⟩
      · exfalso
        unfold match_rule at hmr
        have hne : qnas.isEmpty = false := by
          cases qnas with
          | nil => exact absurd rfl hq
          | cons a l => rfl
        rw [hne] at hmr
        simp only [Bool.false_eq_true, if_false] at hmr
        rw [hsh] at hmr
        simp at hmr
      · rw [match_rule_unfold compiles search ratioFn dbg bot qnas msg row s d hq hsh] at hmr
        have hconf : res.confidence = max 0 s := by
          by_cases hm : (d.exact ||
              decide (0 < d.matched_keywords.length + d.matched_regex.length)
              || decide (mkRat 11 20 ≤ d.ratioVal)) = true
          · rw [if_pos hm] at hmr
            rw [← Option.some.inj hmr]
          · rw [if_neg hm] at hmr
            rw [← Option.some.inj hmr]
        refine ⟨?_, ?_, ?_, ?_⟩
        · rw [hconf]
          exact le_max_left 0 s
        · intro h
          exact absurd h (by simp)
        · intro h
          exact absurd h hq
        intro bot' row' s' d' _ _ hsh'
        rw [hsh'] at hsh
        have hs : s' = s := congrArg (fun t => t.2.1) hsh
        rw [hconf, hs]

/-- Witness for `match_rule_confidence` on a scored, matched bot. -/
theorem match_rule_confidence_witness :
    match_rule (fun _ => true) (fun _ _ => false) (fun _ _ => 0) false
        (some ⟨9, "fb".data⟩)
        [⟨3, "do you have wifi".data, "yes".data, some "wifi".data, some 1⟩]
        "wifi please".data =
      some ⟨true, "yes".data, some "do you have wifi".data, some 3, 14, none⟩ ∧
    (0 : ℤ) ≤ (⟨true, "yes".data, some "do you have wifi".data, some 3, 14, none⟩
        : MatchResult).confidence ∧
    ((some ⟨9, "fb".data⟩ : Option BotRow) = none →
      (⟨true, "yes".data, some "do you have wifi".data, some 3, 14, none⟩
        : MatchResult).confidence = 0) ∧
    (([⟨3, "do you have wifi".data, "yes".data, some "wifi".data, some 1⟩] : List QnaRow)
        = [] →
      (⟨true, "yes".data, some "do you have wifi".data, some 3, 14, none⟩
        : MatchResult).confidence = 0) ∧
    (∀ bot row s d, (some ⟨9, "fb".data⟩ : Option BotRow) = some bot →
      ([⟨3, "do you have wifi".data, "yes".data, some "wifi".data, some 1⟩] : List QnaRow)
        ≠ [] →
      selectLoop (fun _ => true) (fun _ _ => false) (fun _ _ => 0)
        (normalize_list "wifi please".data)
        [⟨3, "do you have wifi".data, "yes".data, some "wifi".data, some 1⟩] =
        (some row, s, some d) →
      (⟨true, "yes".data, some "do you have wifi".data, some 3, 14, none⟩
        : MatchResult).confidence = max 0 s) :=
  ⟨by decide,
   match_rule_confidence (fun _ => true) (fun _ _ => false) (fun _ _ => 0) false
     (some ⟨9, "fb".data⟩)
     [⟨3, "do you have wifi".data, "yes".data, some "wifi".data, some 1⟩]
     "wifi please".data
     ⟨true, "yes".data, some "do you have wifi".data, some 3, 14, none⟩ (by decide)⟩

/-- C5, counterexample.  With the debug flag off, the not-matched
branch of `match_rule` still carries a `debug` key — set to `None`
(`rules.py` line 216 writes `"debug": best_details if DEBUG else
None` unconditionally), so the result does not lack the field. -/
theorem match_rule_debug_key_cex :
    match_rule (fun _ => false) (fun _ _ => false) (fun _ _ => 0) false
        (some ⟨1, "fb".data⟩) [⟨1, "xyzzy".data, "ans".data, none, some 1⟩] "qq".data =
      some ⟨false, "fb".data, none, none, 2, some none⟩ ∧
    (some none : Option (Option ScoreDetail)) ≠ none := by
  refine ⟨by decide, by decide⟩

/-- C5, amended.  With the debug flag off no `ScoreDetail` is ever
emitted: a matched result has no `debug` key at all, while a
not-matched result of a scored candidate list carries a `debug` key
whose value is `None`; in every case the key is absent or `None`,
never a detail. -/
theorem match_rule_no_debug_detail (compiles : List Char → Bool)
    (search : RePattern → List Char → Bool) (ratioFn : List Char → List Char → ℚ)
    (bot? : Option BotRow) (qnas : List QnaRow) (msg : List Char) (res : MatchResult)
    (hmr : match_rule compiles search ratioFn false bot? qnas msg = some res) :
    (res.matched = true → res.debug = none) ∧
    (res.debug = none ∨ res.debug = some none) := by
  cases bot? with
  | none =>
    unfold match_rule at hmr
    have hres := Option.some.inj hmr
    rw [← hres]
    exact ⟨fun _ => rfl, Or.inl rfl⟩
  | some bot =>
    by_cases hq : qnas = []
    · subst hq
      unfold match_rule at hmr
      simp only [List.isEmpty_nil, if_true] at hmr
      have hres := Option.some.inj hmr
      rw [← hres]
      exact ⟨fun _ => rfl, Or.inl rfl⟩
    · rcases selectLoop_shape compiles search ratioFn (normalize_list msg) qnas with
        hsh | ⟨row, s, d, hsh⟩
      · exfalso
        unfold match_rule at hmr
        have hne : qnas.isEmpty = false := by
          cases qnas with
          | nil => exact absurd rfl hq
          | cons a l => rfl
        rw [hne] at hmr
        simp only [Bool.false_eq_true, if_false] at hmr
        rw [hsh] at hmr
        simp at hmr
      · rw [match_rule_unfold compiles search ratioFn false bot qnas msg row s d hq hsh]
          at hmr
        by_cases hm : (d.exact ||
            decide (0 < d.matched_keywords.length + d.matched_regex.length)
            || decide (mkRat 11 20 ≤ d.ratioVal)) = true
        · rw [if_pos hm] at hmr
          rw [← Option.some.inj hmr]
          exact ⟨fun _ => rfl, Or.inl rfl⟩
        · rw [if_neg hm] at hmr
          rw [← Option.some.inj hmr]
          refine ⟨?_, Or.inr rfl⟩
          intro h
          simp at h

/-- Witness for `match_rule_no_debug_detail` at the unmatched
concrete input of the counterexample. -/
theorem match_rule_no_debug_detail_witness :
    match_rule (fun _ => false) (fun _ _ => false) (fun _ _ => 0) false
        (some ⟨1, "fb".data⟩) [⟨1, "xyzzy".data, "ans".data, none, some 1⟩] "qq".data =
      some ⟨false, "fb".data, none, none, 2, some none⟩ ∧
    (((⟨false, "fb".data, none, none, 2, some none⟩ : MatchResult).matched = true →
      (⟨false, "fb".data, none, none, 2, some none⟩ : MatchResult).debug = none) ∧
     ((⟨false, "fb".data, none, none, 2, some none⟩ : MatchResult).debug = none ∨
      (⟨false, "fb".data, none, none, 2, some none⟩ : MatchResult).debug = some none)) :=
  ⟨by decide,
   match_rule_no_debug_detail (fun _ => false) (fun _ _ => false) (fun _ _ => 0)
     (some ⟨1, "fb".data⟩) [⟨1, "xyzzy".data, "ans".data, none, some 1⟩] "qq".data
     ⟨false, "fb".data, none, none, 2, some none⟩ (by decide)⟩

/-! ## Dropping malformed regex tokens -/

/-- A raw comma-token that parses as a regex form (either `re:`-prefixed
or slash-wrapped) whose extracted pattern the compile oracle rejects. -/
def malformedRegexTok (compiles : List Char → Bool) (raw : List Char) : Prop :=
  (isRePrefixTok (pyStrip raw) = true ∧ compiles (pyStrip ((pyStrip raw).drop 3)) = false) ∨
  (isRePrefixTok (pyStrip raw) = false ∧ isSlashTok (pyStrip raw) = true ∧
   compiles (slashPat (pyStrip raw)) = false)

/-- Unfolding equation of `parseTokens` on a cons cell. -/
theorem parseTokens_cons (compiles : List Char → Bool) (raw : List Char)
    (rest : List (List Char)) :
    parseTokens compiles (raw :: rest) =
      (if (pyStrip raw).isEmpty then parseTokens compiles rest
       else if isRePrefixTok (pyStrip raw) then
         if compiles (pyStrip ((pyStrip raw).drop 3)) then
           ((parseTokens compiles rest).1,
            ⟨pyStrip ((pyStrip raw).drop 3), true⟩ :: (parseTokens compiles rest).2)
         else parseTokens compiles rest
       else if isSlashTok (pyStrip raw) then
         if compiles (slashPat (pyStrip raw)) then
           ((parseTokens compiles rest).1,
            ⟨slashPat (pyStrip raw), (slashFlags (pyStrip raw)).contains 'i'⟩ ::
              (parseTokens compiles rest).2)
         else parseTokens compiles rest
       else (pyLower (pyStrip raw) :: (parseTokens compiles rest).1,
             (parseTokens compiles rest).2)) := rfl

/-- A regex-form token is never the empty token. -/
theorem malformed_not_empty {compiles : List Char → Bool} {raw : List Char}
    (h : malformedRegexTok compiles raw) : (pyStrip raw).isEmpty = false := by
  rcases h with ⟨hre, _⟩ | ⟨_, hsl, _⟩
  · cases hkw : pyStrip raw with
    | nil => rw [hkw] at hre; exact absurd hre (by decide)
    | cons a l => rfl
  · cases hkw : pyStrip raw with
    | nil => rw [hkw] at hsl; exact absurd hsl (by decide)
    | cons a l => rfl

/-- Dropping a malformed regex token from the token list leaves the
parse unchanged. -/
theorem parseTokens_drop_malformed (compiles : List Char → Bool) (bad : List Char)
    (hbad : malformedRegexTok compiles bad) :
    ∀ (xs ys : List (List Char)),
      parseTokens compiles (xs ++ bad :: ys) = parseTokens compiles (xs ++ ys) := by
  intro xs
  induction xs with
  | nil =>
    intro ys
    rw [List.nil_append, List.nil_append, parseTokens_cons]
    rw [if_neg (by rw [malformed_not_empty hbad]; exact Bool.false_ne_true)]
    rcases hbad with ⟨hre, hcomp⟩ | ⟨hre, hsl, hcomp⟩
    · rw [if_pos hre, if_neg (by rw [hcomp]; exact Bool.false_ne_true)]
    · rw [if_neg (by rw [hre]; exact Bool.false_ne_true), if_pos hsl,
        if_neg (by rw [hcomp]; exact Bool.false_ne_true)]
  | cons x xs ih =>
    intro ys
    rw [List.cons_append, List.cons_append, parseTokens_cons, parseTokens_cons, ih]

/-- Unfolding equation of `splitOnComma` on a cons cell. -/
theorem splitOnComma_cons (c : Char) (cs : List Char) :
    splitOnComma (c :: cs) =
      if c = ',' then [] :: splitOnComma cs
      else (c :: (splitOnComma cs).headD []) :: (splitOnComma cs).tail := rfl

/-- `splitOnComma` always yields at least one piece. -/
theorem splitOnComma_ne_nil (s : List Char) : splitOnComma s ≠ [] := by
  cases s with
  | nil => simp [splitOnComma]
  | cons c cs =>
    rw [splitOnComma_cons]
    by_cases hc : c = ',' <;> simp [hc]

/-- No piece produced by `splitOnComma` contains a comma. -/
theorem mem_splitOnComma_no_comma :
    ∀ {s : List Char} {t : List Char}, t ∈ splitOnComma s → ',' ∉ t := by
  intro s
  induction s with
  | nil =>
    intro t ht
    simp [splitOnComma] at ht
    simp [ht]
  | cons c cs ih =>
    intro t ht
    rw [splitOnComma_cons] at ht
    cases h : splitOnComma cs with
    | nil => exact absurd h (splitOnComma_ne_nil cs)
    | cons u us =>
      rw [h] at ht
      by_cases hc : c = ','
      · rw [if_pos hc] at ht
        rcases List.mem_cons.1 ht with h0 | h0
        · simp [h0]
        · exact ih (h ▸ h0)
      · rw [if_neg hc] at ht
        simp only [List.headD_cons, List.tail_cons] at ht
        rcases List.mem_cons.1 ht with h0 | h0
        · subst h0
          intro hmem
          rcases List.mem_cons.1 hmem with h1 | h1
          · exact hc h1.symm
          · exact ih (h ▸ List.mem_cons_self u us) h1
        · exact ih (h ▸ List.mem_cons_of_mem u h0)

/-- A comma-free string splits into itself alone. -/
theorem splitOnComma_of_no_comma :
    ∀ {t : List Char}, ',' ∉ t → splitOnComma t = [t] := by
  intro t
  induction t with
  | nil => intro _; rfl
  | cons c cs ih =>
    intro h
    have hc : c ≠ ',' := fun hc => h (hc ▸ List.mem_cons_self c cs)
    have hcs : ',' ∉ cs := fun hm => h (List.mem_cons_of_mem c hm)
    rw [splitOnComma_cons, ih hcs, if_neg hc]
    simp

/-- Splitting a comma-free prefix followed by an explicit comma. -/
theorem splitOnComma_append_comma :
    ∀ {t : List Char}, ',' ∉ t →
      ∀ (rest : List Char), splitOnComma (t ++ ',' :: rest) = t :: splitOnComma rest := by
  intro t
  induction t with
  | nil =>
    intro _ rest
    rw [List.nil_append, splitOnComma_cons, if_pos rfl]
  | cons c cs ih =>
    intro h rest
    have hc : c ≠ ',' := fun hc => h (hc ▸ List.mem_cons_self c cs)
    have hcs : ',' ∉ cs := fun hm => h (List.mem_cons_of_mem c hm)
    rw [List.cons_append, splitOnComma_cons, ih hcs rest, if_neg hc]
    simp

/-- `splitOnComma` undoes `joinComma` on non-empty lists of comma-free
pieces. -/
theorem splitOnComma_joinComma :
    ∀ {l : List (List Char)}, l ≠ [] → (∀ t ∈ l, ',' ∉ t) →
      splitOnComma (joinComma l) = l := by
  intro l
  induction l with
  | nil => intro h _; exact absurd rfl h
  | cons t ts ih =>
    intro _ hmem
    cases ts with
    | nil =>
      show splitOnComma (joinComma [t]) = [t]
      unfold joinComma
      exact splitOnComma_of_no_comma (hmem t (List.mem_cons_self _ _))
    | cons u us =>
      show splitOnComma (t ++ ',' :: joinComma (u :: us)) = t :: u :: us
      rw [splitOnComma_append_comma (hmem t (List.mem_cons_self _ _)),
        ih (by simp) (fun a ha => hmem a (List.mem_cons_of_mem _ ha))]

/-- A non-empty list is not `isEmpty`. -/
theorem isEmpty_false_of_ne_nil {α : Type} {l : List α} (h : l ≠ []) :
    l.isEmpty = false := by
  cases l with
  | nil => exact absurd rfl h
  | cons a t => rfl

/-- C8.  A keyword spec containing a malformed regex token (a
`re:`-prefixed or slash-wrapped token whose pattern the compiler
rejects) parses, without error, to exactly the phrases and patterns
of the spec with that token removed. -/
theorem parse_keywords_drop_malformed (compiles : List Char → Bool) (s : List Char)
    (xs ys : List (List Char)) (bad : List Char)
    (hsplit : splitOnComma s = xs ++ bad :: ys)
    (hbad : malformedRegexTok compiles bad) :
    parse_keywords compiles (some s) =
      parse_keywords compiles (some (joinComma (xs ++ ys))) := by
  have hs : s ≠ [] := by
    intro h
    subst h
    have hone : ([[]] : List (List Char)) = xs ++ bad :: ys := hsplit
    cases xs with
    | cons a l =>
      have hlen := congrArg List.length hone
      simp at hlen
    | nil =>
      simp only [List.nil_append, List.cons.injEq] at hone
      have hbadnil : bad = [] := hone.1.symm
      subst hbadnil
      have := malformed_not_empty hbad
      simp [pyStrip] at this
  have hmemall : ∀ t ∈ xs ++ ys, ',' ∉ t := by
    intro t ht
    apply mem_splitOnComma_no_comma (s := s)
    rw [hsplit]
    rcases List.mem_append.1 ht with h | h
    · exact List.mem_append.2 (Or.inl h)
    · exact List.mem_append.2 (Or.inr (List.mem_cons_of_mem _ h))
  have hL : parse_keywords compiles (some s) = parseTokens compiles (xs ++ ys) := by
    unfold parse_keywords
    simp only []
    rw [if_neg (by rw [isEmpty_false_of_ne_nil hs]; exact Bool.false_ne_true)]
    rw [hsplit, parseTokens_drop_malformed compiles bad hbad]
  have hR : parse_keywords compiles (some (joinComma (xs ++ ys))) =
      parseTokens compiles (xs ++ ys) := by
    cases hxy : xs ++ ys with
    | nil => rfl
    | cons t ts =>
      cases ts with
      | nil =>
        by_cases ht : t = []
        · subst ht
          rfl
        · show parse_keywords compiles (some (joinComma [t])) = _
          unfold parse_keywords
          simp only []
          rw [if_neg (by
            rw [isEmpty_false_of_ne_nil (show joinComma [t] ≠ [] from ht)]
            exact Bool.false_ne_true)]
          rw [splitOnComma_joinComma (by simp)
            (fun a ha => hmemall a (by rw [hxy]; exact ha))]
      | cons u us =>
        have hjoin : joinComma (t :: u :: us) ≠ [] := by
          show t ++ ',' :: joinComma (u :: us) ≠ []
          simp
        show parse_keywords compiles (some (joinComma (t :: u :: us))) = _
        unfold parse_keywords
        simp only []
        rw [if_neg (by rw [isEmpty_false_of_ne_nil hjoin]; exact Bool.false_ne_true)]
        rw [splitOnComma_joinComma (by simp)
          (fun a ha => hmemall a (by rw [hxy]; exact ha))]
  rw [hL, hR]

/-- Witness for `parse_keywords_drop_malformed`: the spec
`"cat,re:[,dog"` with an uncompilable `re:[` token parses like
`"cat,dog"`. -/
theorem parse_keywords_drop_malformed_witness :
    splitOnComma "cat,re:[,dog".data = ["cat".data] ++ "re:[".data :: ["dog".data] ∧
    malformedRegexTok (fun p => p ≠ "[".data) "re:[".data ∧
    parse_keywords (fun p => p ≠ "[".data) (some "cat,re:[,dog".data) =
      parse_keywords (fun p => p ≠ "[".data)
        (some (joinComma (["cat".data] ++ ["dog".data]))) :=
  ⟨by decide, by unfold malformedRegexTok; decide,
   parse_keywords_drop_malformed (fun p => p ≠ "[".data) "cat,re:[,dog".data
     ["cat".data] ["dog".data] "re:[".data (by decide)
     (by unfold malformedRegexTok; decide)⟩

/-! ## Whole-word occurrence -/

/-- Modelled from the spec's words: `p` occurs in `t` as a whole word
when `t` splits as `pre ++ p ++ suf` with a word boundary on each
side — exactly one of the characters astride each seam is a word
character (a missing character counts as non-word).  This is the
declarative counterpart of the executable `wholeWordSearch`. -/
def OccursAsWholeWord (t p : List Char) : Prop :=
  ∃ pre suf, t = pre ++ p ++ suf ∧
    wordOpt pre.getLast? ≠ wordOpt p.head? ∧
    wordOpt p.getLast? ≠ wordOpt suf.head?

/-- Looking up the last position of the prefix of a decomposition. -/
theorem get?_pre_last (pre rest : List Char) (hpre : pre ≠ []) :
    (pre ++ rest).get? (pre.length - 1) = pre.getLast? := by
  rw [List.get?_append (by
    cases pre with
    | nil => exact absurd rfl hpre
    | cons a l => simp)]
  exact (List.getLast?_eq_get? pre).symm

/-- Looking up the first position of the middle of a decomposition. -/
theorem get?_mid_head (pre x rest : List Char) (hx : x ≠ []) :
    (pre ++ x ++ rest).get? pre.length = x.head? := by
  rw [List.append_assoc, List.get?_append_right (le_refl _), Nat.sub_self]
  rw [List.get?_append (by
    cases x with
    | nil => exact absurd rfl hx
    | cons a l => simp)]
  exact List.get?_zero x

/-- Looking up the last position of the middle of a decomposition. -/
theorem get?_mid_last (pre x rest : List Char) (hx : x ≠ []) :
    (pre ++ x ++ rest).get? (pre.length + x.length - 1) = x.getLast? := by
  have hxlen : 1 ≤ x.length := by
    cases x with
    | nil => exact absurd rfl hx
    | cons a l => simp
  rw [List.append_assoc,
    List.get?_append_right (by omega : pre.length ≤ pre.length + x.length - 1)]
  rw [show pre.length + x.length - 1 - pre.length = x.length - 1 by omega]
  rw [List.get?_append (by omega)]
  exact (List.getLast?_eq_get? x).symm

/-- Looking up the first position of the suffix of a decomposition. -/
theorem get?_suf_head (pre x suf : List Char) :
    (pre ++ x ++ suf).get? (pre.length + x.length) = suf.head? := by
  rw [List.append_assoc,
    List.get?_append_right (by omega : pre.length ≤ pre.length + x.length)]
  rw [show pre.length + x.length - pre.length = x.length by omega]
  rw [List.get?_append_right (le_refl _), Nat.sub_self]
  exact List.get?_zero suf

/-- The leading `\b` of the search, read off a decomposition. -/
theorem boundary_decomp_start (pre x suf : List Char) (hx : x ≠ []) :
    boundaryAt (pre ++ x ++ suf) pre.length = true ↔
      wordOpt pre.getLast? ≠ wordOpt x.head? := by
  unfold boundaryAt wordAt
  rw [bne_iff_ne]
  rw [get?_mid_head pre x suf hx]
  by_cases hpre : pre = []
  · subst hpre
    simp [wordOpt]
  · rw [if_neg (by
      cases pre with
      | nil => exact absurd rfl hpre
      | cons a l => simp)]
    rw [List.append_assoc, get?_pre_last pre (x ++ suf) hpre]

/-- The trailing `\b` of the search, read off a decomposition. -/
theorem boundary_decomp_end (pre x suf : List Char) (hx : x ≠ []) :
    boundaryAt (pre ++ x ++ suf) (pre.length + x.length) = true ↔
      wordOpt x.getLast? ≠ wordOpt suf.head? := by
  have hxlen : 1 ≤ x.length := by
    cases x with
    | nil => exact absurd rfl hx
    | cons a l => simp
  unfold boundaryAt wordAt
  rw [bne_iff_ne]
  rw [get?_suf_head pre x suf]
  rw [if_neg (by omega)]
  rw [get?_mid_last pre x suf hx]

/-- The scanning regex search finds the literal with word boundaries
exactly when a boundary-respecting decomposition exists. -/
theorem wholeWordSearch_iff (t p : List Char) (hp : p ≠ []) :
    wholeWordSearch t p = true ↔ OccursAsWholeWord t p := by
  unfold wholeWordSearch
  rw [List.any_eq_true]
  constructor
  · rintro ⟨i, hi, hcond⟩
    rw [List.mem_range] at hi
    have hile : i ≤ t.length := Nat.lt_succ_iff.mp hi
    simp only [Bool.and_eq_true] at hcond
    obtain ⟨⟨hm, hb1⟩, hb2⟩ := hcond
    have hmp : (t.drop i).take p.length = p := by
      simpa [matchAt] using hm
    have hplen : i + p.length ≤ t.length := by
      have hl := congrArg List.length hmp
      rw [List.length_take, List.length_drop] at hl
      rcases Nat.le_total p.length (t.length - i) with h | h
      · omega
      · rw [Nat.min_eq_right h] at hl
        omega
    have hdecomp : t = t.take i ++ p ++ t.drop (i + p.length) := by
      rw [List.append_assoc]
      conv_lhs => rw [← List.take_append_drop i t]
      congr 1
      show t.drop i = p ++ t.drop (i + p.length)
      calc t.drop i = (t.drop i).take p.length ++ (t.drop i).drop p.length :=
            (List.take_append_drop p.length (t.drop i)).symm
        _ = p ++ t.drop (i + p.length) := by rw [hmp, List.drop_drop]
    have hlenpre : (t.take i).length = i := by
      rw [List.length_take]
      omega
    refine ⟨t.take i, t.drop (i + p.length), hdecomp, ?_, ?_⟩
    · rw [← boundary_decomp_start (t.take i) p (t.drop (i + p.length)) hp, ← hdecomp,
        hlenpre]
      exact hb1
    · rw [← boundary_decomp_end (t.take i) p (t.drop (i + p.length)) hp, ← hdecomp,
        hlenpre]
      exact hb2
  · rintro ⟨pre, suf, hdecomp, hb1, hb2⟩
    refine ⟨pre.length, ?_, ?_⟩
    · rw [List.mem_range, Nat.lt_succ_iff, hdecomp]
      simp only [List.length_append]
      omega
    · simp only [Bool.and_eq_true]
      refine ⟨⟨?_, ?_⟩, ?_⟩
      · show ((t.drop pre.length).take p.length == p) = true
        rw [hdecomp, List.append_assoc, List.drop_left, List.take_left]
        simp
      · rw [hdecomp]
        exact (boundary_decomp_start pre p suf hp).mpr hb1
      · rw [hdecomp]
        exact (boundary_decomp_end pre p suf hp).mpr hb2

/-- C6.  A single-token phrase matches exactly when it occurs in the
text as a whole word (word-boundary test on both sides); a
multi-token phrase matches exactly when it is a contiguous substring;
in particular `"cat"` does not match inside `"category"` but does
inside `"i have a cat"`. -/
theorem phrase_in_text_spec (t p : List Char) :
    ((splitWs p).length = 1 →
      (phrase_in_text t p = true ↔ OccursAsWholeWord t p)) ∧
    (2 ≤ (splitWs p).length →
      (phrase_in_text t p = true ↔ p <:+: t)) ∧
    phrase_in_text "category".data "cat".data = false ∧
    phrase_in_text "i have a cat".data "cat".data = true := by
  refine ⟨?_, ?_, by decide, by decide⟩
  · intro h1
    have hp : p ≠ [] := by
      intro h
      subst h
      simp [splitWs, splitWsAux] at h1
    unfold phrase_in_text
    rw [if_neg (by rw [isEmpty_false_of_ne_nil hp]; exact Bool.false_ne_true), if_pos h1]
    exact wholeWordSearch_iff t p hp
  · intro h2
    have hp : p ≠ [] := by
      intro h
      subst h
      simp [splitWs, splitWsAux] at h2
    unfold phrase_in_text
    rw [if_neg (by rw [isEmpty_false_of_ne_nil hp]; exact Bool.false_ne_true),
      if_neg (by omega)]
    simp

/-- Witness for `phrase_in_text_spec`: a concrete whole-word
occurrence and a concrete substring occurrence extracted through the
theorem. -/
theorem phrase_in_text_spec_witness :
    OccursAsWholeWord "i have a cat".data "cat".data ∧
    "free wifi".data <:+: "is there free wifi here".data :=
  ⟨((phrase_in_text_spec "i have a cat".data "cat".data).1 (by decide)).mp (by decide),
   ((phrase_in_text_spec "is there free wifi here".data "free wifi".data).2.1
     (by decide)).mp (by decide)⟩
